import Mathlib

/-!
# Verification of the `Blockchain` core (`blockchain3.py`)

A shallow embedding of the ledger/consensus engine of the repository:
block and transaction representation, SHA-256 hashing of the canonical
JSON serialization (`json.dumps(block, sort_keys=True)`), proof-of-work,
chain validation (`valid_chain`), peer registration (`register_node`,
via `urllib.parse.urlparse`), and conflict resolution
(`resolve_conflicts`).

Machine integers do not arise: Python integers are unbounded, so they
are modelled by `Int` (and `Nat` where the source can only produce
non-negative values).  Python's `time.time()` returns a float; the
embedding passes the timestamp in explicitly as a natural number (an
integer-valued timestamp), which is also exactly what a peer-supplied
JSON chain may contain.  Fallible operations (Python `IndexError` on
`chain[-1]` / `chain[0]`) are modelled with `Option`.
-/

set_option maxRecDepth 100000

namespace SHA256

/-- `2^32`, the word modulus of SHA-256. -/
def M32 : Nat := 4294967296

/-- 32-bit right rotation of `x` (assumed `< 2^32`) by `k`. -/
def rotr (k x : Nat) : Nat := ((x >>> k) ||| (x <<< (32 - k))) % M32

/-- Logical right shift. -/
def shr (k x : Nat) : Nat := x >>> k

/-- Truncated 32-bit addition. -/
def add32 (a b : Nat) : Nat := (a + b) % M32

/-- 32-bit bitwise complement, for words `< 2^32`. -/
def not32 (x : Nat) : Nat := x ^^^ 4294967295

def bigSigma0 (x : Nat) : Nat := (rotr 2 x) ^^^ ((rotr 13 x) ^^^ (rotr 22 x))

def bigSigma1 (x : Nat) : Nat := (rotr 6 x) ^^^ ((rotr 11 x) ^^^ (rotr 25 x))

def smallSigma0 (x : Nat) : Nat := (rotr 7 x) ^^^ ((rotr 18 x) ^^^ (shr 3 x))

def smallSigma1 (x : Nat) : Nat := (rotr 17 x) ^^^ ((rotr 19 x) ^^^ (shr 10 x))

def ch (x y z : Nat) : Nat := (x &&& y) ^^^ (not32 x &&& z)

def maj (x y z : Nat) : Nat := (x &&& y) ^^^ ((x &&& z) ^^^ (y &&& z))

/-- The 64 round constants of SHA-256 (FIPS 180-4), in decimal. -/
def K : List Nat :=
  [1116352408, 1899447441, 3049323471, 3921009573, 961987163,
   1508970993, 2453635748, 2870763221, 3624381080, 310598401,
   607225278, 1426881987, 1925078388, 2162078206, 2614888103,
   3248222580, 3835390401, 4022224774, 264347078, 604807628,
   770255983, 1249150122, 1555081692, 1996064986, 2554220882,
   2821834349, 2952996808, 3210313671, 3336571891, 3584528711,
   113926993, 338241895, 666307205, 773529912, 1294757372,
   1396182291, 1695183700, 1986661051, 2177026350, 2456956037,
   2730485921, 2820302411, 3259730800, 3345764771, 3516065817,
   3600352804, 4094571909, 275423344, 430227734, 506948616,
   659060556, 883997877, 958139571, 1322822218, 1537002063,
   1747873779, 1955562222, 2024104815, 2227730452, 2361852424,
   2428436474, 2756734187, 3204031479, 3329325298]

/-- The initial hash state of SHA-256 (FIPS 180-4), in decimal. -/
def H0 : List Nat :=
  [1779033703, 3144134277, 1013904242, 2773480762,
   1359893119, 2600822924, 528734635, 1541459225]

/-- The `k` bytes of `v`, big-endian (most significant first). -/
def bytesBE : Nat → Nat → List Nat
  | 0, _ => []
  | k + 1, v => ((v >>> (8 * k)) % 256) :: bytesBE k v

/-- SHA-256 message padding: append `0x80`, zero bytes up to 56 mod 64,
and the bit length as an 8-byte big-endian integer. -/
def pad (msg : List Nat) : List Nat :=
  let n := msg.length
  let z := (119 - n % 64) % 64
  msg ++ [0x80] ++ List.replicate z 0 ++ bytesBE 8 (8 * n)

/-- Group a list of bytes into big-endian 32-bit words. -/
def toWords : List Nat → List Nat
  | b0 :: b1 :: b2 :: b3 :: rest =>
      (((b0 * 256 + b1) * 256 + b2) * 256 + b3) :: toWords rest
  | _ => []

/-- Split a word list into chunks of 16 (the 512-bit blocks).  Padded
input always has a multiple of 16 words, so the trailing catch-all case
never fires on inputs produced by `pad`. -/
def toBlocks : List Nat → List (List Nat)
  | w0 :: w1 :: w2 :: w3 :: w4 :: w5 :: w6 :: w7 ::
    w8 :: w9 :: w10 :: w11 :: w12 :: w13 :: w14 :: w15 :: rest =>
      [w0, w1, w2, w3, w4, w5, w6, w7, w8, w9, w10, w11, w12, w13, w14, w15]
        :: toBlocks rest
  | [] => []
  | other => [other]

/-- Extend the 16-word schedule by `k` further words. -/
def extendGo : Nat → List Nat → List Nat
  | 0, w => w
  | k + 1, w =>
      let t := w.length
      let nw := add32 (add32 (smallSigma1 (w.getD (t - 2) 0)) (w.getD (t - 7) 0))
                      (add32 (smallSigma0 (w.getD (t - 15) 0)) (w.getD (t - 16) 0))
      extendGo k (w ++ [nw])

/-- The 64 compression rounds, consuming round constants and schedule words. -/
def compressGo : List Nat → List Nat → List Nat → List Nat
  | [], _, st => st
  | _, [], st => st
  | k :: ks, w :: ws, [a, b, c, d, e, f, g, h] =>
      let t1 := add32 h (add32 (bigSigma1 e) (add32 (ch e f g) (add32 k w)))
      let t2 := add32 (bigSigma0 a) (maj a b c)
      compressGo ks ws [add32 t1 t2, a, b, c, add32 d t1, e, f, g]
  | _ :: _, _ :: _, st => st

/-- Process one 512-bit block, updating the 8-word state. -/
def processBlock (st : List Nat) (blockWords : List Nat) : List Nat :=
  let w := extendGo 48 blockWords
  let st' := compressGo K w st
  List.zipWith add32 st st'

/-- The eight 32-bit state words of the SHA-256 digest of a byte string. -/
def sha256Words (msg : List Nat) : List Nat :=
  (toBlocks (toWords (pad msg))).foldl processBlock H0

/-- The SHA-256 digest of a byte string as one 256-bit natural number. -/
def sha256Nat (msg : List Nat) : Nat :=
  (sha256Words msg).foldl (fun acc wrd => acc * M32 + wrd) 0

end SHA256

/-- The lower-case hexadecimal digit for `n < 16` (as Python uses). -/
def hexChar (n : Nat) : Char :=
  if n < 10 then Char.ofNat (48 + n) else Char.ofNat (87 + n)

/-- The `k`-character zero-padded lower-case hexadecimal representation of
`n`, most significant digit first. -/
def hexDigits : Nat → Nat → List Char
  | 0, _ => []
  | k + 1, n => hexChar (n / 16 ^ k % 16) :: hexDigits k n

/-- UTF-8 encoding of a single code point (Python `str.encode()`). -/
def utf8Encode (c : Nat) : List Nat :=
  if c < 0x80 then [c]
  else if c < 0x800 then [0xc0 + c / 64, 0x80 + c % 64]
  else if c < 0x10000 then [0xe0 + c / 4096, 0x80 + c / 64 % 64, 0x80 + c % 64]
  else [0xf0 + c / 262144, 0x80 + c / 4096 % 64, 0x80 + c / 64 % 64, 0x80 + c % 64]

/-- The UTF-8 bytes of a string (Python `str.encode()`). -/
def strBytes (s : String) : List Nat :=
  s.toList.foldr (fun c acc => utf8Encode c.toNat ++ acc) []

/-- `hashlib.sha256(s.encode()).hexdigest()` as a list of 64 hex characters. -/
def sha256hexChars (s : String) : List Char :=
  hexDigits 64 (SHA256.sha256Nat (strBytes s))

/-- `hashlib.sha256(s.encode()).hexdigest()`. -/
def sha256hex (s : String) : String :=
  String.mk (sha256hexChars s)

/-!
## JSON values and `json.dumps(·, sort_keys=True)`

Python dictionaries preserve insertion order, so a JSON object is
modelled as a sequence of key/value fields in presentation order.  To
keep every definition structurally recursive (and hence evaluable by
the kernel), sequences are built into the inductive itself: `arrCons`
chains ending in `arrNil` are JSON arrays, `objCons` chains ending in
`objNil` are JSON objects.  The repository only ever serializes
strings, ints, lists and dicts (blocks and their transactions), so
these constructors cover the values that reach `json.dumps`; `time()`
floats are represented by integer-valued timestamps (see the header
comment).
-/

inductive JValue : Type where
  | str : String → JValue
  | int : Int → JValue
  | arrNil : JValue
  | arrCons : JValue → JValue → JValue
  | objNil : JValue
  | objCons : String → JValue → JValue → JValue
deriving DecidableEq

/-- Escape one character the way Python's `json` encoder does with its
default `ensure_ascii=True`: the two-character escapes of its escape
table, `\uXXXX` for other control or non-ASCII characters (surrogate
pairs above `0xFFFF`), the character itself otherwise. -/
def jsonEscapeChar (c : Char) : List Char :=
  let n := c.toNat
  if c = '"' then ['\\', '"']
  else if c = '\\' then ['\\', '\\']
  else if n = 8 then ['\\', 'b']
  else if n = 9 then ['\\', 't']
  else if n = 10 then ['\\', 'n']
  else if n = 12 then ['\\', 'f']
  else if n = 13 then ['\\', 'r']
  else if n < 0x20 ∨ 0x7e < n then
    if n < 0x10000 then '\\' :: 'u' :: hexDigits 4 n
    else ('\\' :: 'u' :: hexDigits 4 (0xd800 + (n - 0x10000) / 0x400)) ++
         ('\\' :: 'u' :: hexDigits 4 (0xdc00 + (n - 0x10000) % 0x400))
  else [c]

/-- A JSON string literal: quotes around the escaped characters. -/
def jsonQuote (s : String) : String :=
  "\"" ++ String.mk (s.toList.foldr (fun c acc => jsonEscapeChar c ++ acc) []) ++ "\""

/-- Join with a separator (the encoder's `', '` item separator). -/
def joinSep (sep : String) : List String → String
  | [] => ""
  | [x] => x
  | x :: y :: xs => x ++ sep ++ joinSep sep (y :: xs)

/-- Lexicographic comparison of character lists by code point — the
comparison Python uses on strings (a proper prefix is smaller). -/
def charListLe : List Char → List Char → Bool
  | [], _ => true
  | _ :: _, [] => false
  | a :: as, b :: bs =>
      if a.toNat < b.toNat then true
      else if b.toNat < a.toNat then false
      else charListLe as bs

/-- Python's `s1 <= s2` on strings. -/
def strLe (a b : String) : Bool :=
  charListLe a.toList b.toList

/-- `sort_keys=True`: the encoder emits `sorted(dct.items())`, which for
the distinct keys of a dict orders the items by key. -/
def sortFields (l : List (String × String)) : List (String × String) :=
  List.insertionSort (fun a b => strLe a.1 b.1 = true) l

/-- Render a JSON object from its fields, each value already
serialized: sort by key and join with the default separators. -/
def renderObj (fs : List (String × String)) : String :=
  "\x7b" ++
    joinSep ", " ((sortFields fs).map fun p => jsonQuote p.1 ++ ": " ++ p.2) ++
  "\x7d"

/-- The serialization worker: for a value it returns
(its serialization, the serialized items if it is an array, the
key/serialized-value fields if it is an object). -/
def jd : JValue → String × List String × List (String × String)
  | .str s => (jsonQuote s, [], [])
  | .int n => (toString n, [], [])
  | .arrNil => ("[]", [], [])
  | .arrCons v t =>
      let sv := (jd v).1
      let items := sv :: (jd t).2.1
      ("[" ++ joinSep ", " items ++ "]", items, [])
  | .objNil => (renderObj [], [], [])
  | .objCons k v t =>
      let fs := (k, (jd v).1) :: (jd t).2.2
      (renderObj fs, [], fs)

/-- `json.dumps(v, sort_keys=True)` with the default separators. -/
def jsonDumps (v : JValue) : String := (jd v).1

/-!
## The data model of the ledger
-/

/-- A transaction as built by `new_transaction`:
`{'sender': …, 'recipient': …, 'amount': …}`. -/
structure Transaction where
  sender : String
  recipient : String
  amount : Int
deriving DecidableEq

/-- A block as built by `new_block` (or received from a peer).
`timestamp` is integer-valued, see the header comment. -/
structure Block where
  index : Int
  timestamp : Int
  transactions : List Transaction
  proof : Int
  previous_hash : String
deriving DecidableEq

/-- The transaction dict in its construction (insertion) order. -/
def transactionJson (tx : Transaction) : JValue :=
  .objCons "sender" (.str tx.sender)
    (.objCons "recipient" (.str tx.recipient)
      (.objCons "amount" (.int tx.amount) .objNil))

/-- A transaction list as a JSON array. -/
def txsJson : List Transaction → JValue
  | [] => .arrNil
  | t :: ts => .arrCons (transactionJson t) (txsJson ts)

/-- The block dict in its construction (insertion) order, as written in
`new_block`. -/
def blockJson (b : Block) : JValue :=
  .objCons "index" (.int b.index)
    (.objCons "timestamp" (.int b.timestamp)
      (.objCons "transactions" (txsJson b.transactions)
        (.objCons "proof" (.int b.proof)
          (.objCons "previous_hash" (.str b.previous_hash) .objNil))))

namespace Blockchain

/-- `Blockchain.hash`: the SHA-256 hex digest of
`json.dumps(block, sort_keys=True).encode()`. -/
def hash (v : JValue) : String :=
  sha256hex (jsonDumps v)

end Blockchain

/-!
## The `Blockchain` class state and its methods

The state of one instance: `self.chain`, `self.current_transactions`,
`self.nodes`.  The node set is modelled as a duplicate-free list (the
iteration order of the Python set is unspecified; `register_node` below
adds with set semantics).
-/

structure Blockchain where
  chain : List Block
  current_transactions : List Transaction
  nodes : List String
deriving DecidableEq

namespace Blockchain

/-- `valid_proof(last_proof, proof)`: hash `f'{last_proof}{proof}'` and
test `guess_hash[:4] == "0000"`. -/
def valid_proof (last_proof proof : Int) : Bool :=
  let guess := toString last_proof ++ toString proof
  let guess_hash := sha256hexChars guess
  guess_hash.take 4 == ['0', '0', '0', '0']

/-- `proof_of_work(last_proof)`: `proof = 0; while not valid_proof(last_proof,
proof): proof += 1; return proof`.  The loop is embedded as `Nat.find`,
which is exactly the first (hence smallest) counter value satisfying
the test; the hypothesis `h` is the termination condition under which
the unbounded Python loop returns at all. -/
def proof_of_work (last_proof : Int)
    (h : ∃ q : Nat, valid_proof last_proof q = true) : Nat :=
  Nat.find h

/-- `last_block`: `self.chain[-1]`, `none` models the `IndexError` on an
empty chain. -/
def last_block (bc : Blockchain) : Option Block :=
  bc.chain.getLast?

/-- The block record built in the body of `new_block` once the
`previous_hash` expression has been evaluated to `ph`, together with
the updated state (pool cleared, block appended). -/
def mkNewBlock (bc : Blockchain) (t : Nat) (proof : Int) (ph : String) :
    Block × Blockchain :=
  let block : Block :=
    { index := (bc.chain.length : Int) + 1
      timestamp := (t : Int)
      transactions := bc.current_transactions
      proof := proof
      previous_hash := ph }
  (block, { bc with current_transactions := [], chain := bc.chain ++ [block] })

/-- `new_block(proof, previous_hash)`.  The Python default argument and
the route layer pass `None`; the expression
`previous_hash or self.hash(self.last_block)` uses the digest of the
last block whenever `previous_hash` is falsy — `None` or the empty
string.  The timestamp `t` stands for `time()` (see header).  `none` as
a result models the `IndexError` of `self.last_block` on an empty
chain, which Python only evaluates when `previous_hash` is falsy. -/
def new_block (bc : Blockchain) (t : Nat) (proof : Int)
    (previous_hash : Option String) : Option (Block × Blockchain) :=
  match previous_hash with
  | some s =>
      if s = "" then
        (bc.last_block).map fun last => mkNewBlock bc t proof (hash (blockJson last))
      else some (mkNewBlock bc t proof s)
  | none =>
      (bc.last_block).map fun last => mkNewBlock bc t proof (hash (blockJson last))

/-- `new_transaction(sender, recipient, amount)`: append to the pending
pool and return `self.last_block['index'] + 1` (an `IndexError`, i.e.
`none`, on an empty chain). -/
def new_transaction (bc : Blockchain) (sender recipient : String)
    (amount : Int) : Option (Int × Blockchain) :=
  let bc' := { bc with
    current_transactions :=
      bc.current_transactions ++ [{ sender := sender, recipient := recipient, amount := amount }] }
  (bc.last_block).map fun last => (last.index + 1, bc')

/-- The loop body of `valid_chain`, walking from the current
`last_block`: check the hash link, then the proof of work, then step. -/
def validFrom (last : Block) : List Block → Bool
  | [] => true
  | b :: rest =>
      if ¬ (b.previous_hash = hash (blockJson last)) then false
      else if ¬ (valid_proof last.proof b.proof = true) then false
      else validFrom b rest

/-- `valid_chain(chain)`: `last_block = chain[0]` (an `IndexError`,
i.e. `none`, on an empty list), then walk indices `1 … len-1`. -/
def valid_chain (chain : List Block) : Option Bool :=
  match chain with
  | [] => none
  | first :: rest => some (validFrom first rest)

end Blockchain

/-!
## `urllib.parse.urlparse(address).netloc`

`register_node` stores only the `netloc` component.  The model follows
CPython's `urlsplit`: strip a scheme when the text before the first
`':'` starts with an ASCII letter and consists of scheme characters;
then the netloc is present only when the remainder starts with `'//'`,
and extends up to the next `'/'`, `'?'` or `'#'`. -/

def schemeChar (c : Char) : Bool :=
  c.isAlpha || c.isDigit || c = '+' || c = '-' || c = '.'

def stripScheme (l : List Char) : List Char :=
  match l.findIdx? (· = ':') with
  | none => l
  | some i =>
      if 0 < i then
        if (l.headD ' ').isAlpha && (l.take i).all schemeChar
        then l.drop (i + 1) else l
      else l

def netlocOf : List Char → List Char
  | '/' :: '/' :: rest => rest.takeWhile fun c => ¬ (c = '/' ∨ c = '?' ∨ c = '#')
  | _ => []

def urlparseNetloc (address : String) : String :=
  String.mk (netlocOf (stripScheme address.toList))

/-- `set.add` on the duplicate-free list model of `self.nodes`. -/
def setAdd (l : List String) (x : String) : List String :=
  if x ∈ l then l else l ++ [x]

namespace Blockchain

/-- `register_node(address)`:
`self.nodes.add(urlparse(address).netloc)`. -/
def register_node (bc : Blockchain) (address : String) : Blockchain :=
  { bc with nodes := setAdd bc.nodes (urlparseNetloc address) }

/-!
## `resolve_conflicts`

The peer fetch `requests.get(f'http://{node}/chain')` is an external
collaborator; it is passed in as `fetch : String → Option (Nat × List
Block)`, where `some (length, chain)` models a 200 response carrying
the peer-reported `length` and `chain` fields (the code trusts the
reported `length`, it never recomputes `len(chain)`), and `none` models
a non-200 status, which the loop skips.
-/

/-- The `for node in neighbours` loop, threading
`(max_length, new_chain)`.  The outer `none` models the uncaught
`IndexError` that `self.valid_chain(chain)` raises when a peer with a
large enough reported length serves an empty chain list. -/
def resolveGo (fetch : String → Option (Nat × List Block)) :
    List String → Nat → Option (List Block) → Option (Nat × Option (List Block))
  | [], maxLen, newChain => some (maxLen, newChain)
  | node :: rest, maxLen, newChain =>
      match fetch node with
      | none => resolveGo fetch rest maxLen newChain
      | some (length, chain) =>
          if maxLen < length then
            match valid_chain chain with
            | none => none
            | some true => resolveGo fetch rest length (some chain)
            | some false => resolveGo fetch rest maxLen newChain
          else resolveGo fetch rest maxLen newChain

/-- `resolve_conflicts()`.  The inner `Option Bool` is the Python return
value: `some true` for the `return True` branch, and `none` for the
fall-through — the function body has no `return False`, so Python
returns `None` when the chain is not replaced.  The final
`if new_chain:` is Python truthiness on a list, i.e. also false for an
empty adopted list (which cannot occur, since only chains that passed
`valid_chain` are adopted). -/
def resolve_conflicts (bc : Blockchain)
    (fetch : String → Option (Nat × List Block)) :
    Option (Option Bool × Blockchain) :=
  match resolveGo fetch bc.nodes bc.chain.length none with
  | none => none
  | some (_, some c) =>
      if c = [] then some (none, bc) else some (some true, { bc with chain := c })
  | some (_, none) => some (none, bc)

end Blockchain

/-- The genesis block: `__init__` runs
`self.new_block(previous_hash='1', proof=100)` on the empty state, at
construction time `t`. -/
def genesisBlock (t : Nat) : Block :=
  { index := 1, timestamp := (t : Int), transactions := [], proof := 100,
    previous_hash := "1" }

/-- A freshly constructed `Blockchain()` (construction time `t`). -/
def Blockchain.init (t : Nat) : Blockchain :=
  { chain := [genesisBlock t], current_transactions := [], nodes := [] }

/-- The last element of the walk `a :: l` (the running `last_block`). -/
def lastB (a : Block) : List Block → Block
  | [] => a
  | b :: l => lastB b l

/-- A block whose `index` field (5) does not match its position — e.g.
the head of a peer-adopted chain; `valid_chain` accepts such chains. -/
def skewBlock : Block :=
  { index := 5, timestamp := 0, transactions := [], proof := 100,
    previous_hash := "1" }

/-- A state whose single block has `index = 5`. -/
def skewState : Blockchain :=
  { chain := [skewBlock], current_transactions := [], nodes := [] }

/-- Head of a structurally valid peer chain with a wrong index (7). -/
def skewChainA : Block :=
  { index := 7, timestamp := 0, transactions := [], proof := 100,
    previous_hash := "1" }

/-- Second block of the peer chain: correct hash link and proof of work
(`sha256('10035293')` starts with four zeros), wrong index (9). -/
def skewChainB : Block :=
  { index := 9, timestamp := 0, transactions := [], proof := 35293,
    previous_hash := Blockchain.hash (blockJson skewChainA) }

/-- A two-block chain that passes `valid_chain` with indices 7, 9. -/
def skewChain : List Block := [skewChainA, skewChainB]

/-- Chains producible by successive `new_block` calls with
`previous_hash` omitted, starting from the genesis chain, where every
mining step supplies a proof accepted by `valid_proof` against the
previous block's proof.  The appended block is exactly the one
`new_block` builds on a state holding chain `c` and pool `txs`. -/
inductive MinedChain : List Block → Prop where
  | genesis (t : Nat) : MinedChain [genesisBlock t]
  | mine (c : List Block) (txs : List Transaction) (nodes : List String)
      (last : Block) (t : Nat) (p : Int) :
      MinedChain c → c.getLast? = some last →
      Blockchain.valid_proof last.proof p = true →
      MinedChain (c ++
        [(Blockchain.mkNewBlock
            { chain := c, current_transactions := txs, nodes := nodes }
            t p (Blockchain.hash (blockJson last))).1])

/-- The block mined on top of genesis (time 1, proof 35293, empty pool). -/
def minedWitnessBlock : Block :=
  (Blockchain.mkNewBlock
    { chain := [genesisBlock 0], current_transactions := [], nodes := [] }
    1 35293 (Blockchain.hash (blockJson (genesisBlock 0)))).1

/-- The two-block mined chain used to witness C4. -/
def minedWitnessChain : List Block := [genesisBlock 0] ++ [minedWitnessBlock]

/-- Build a JSON object from a list of fields in presentation order. -/
def objOfList (l : List (String × JValue)) : JValue :=
  l.foldr (fun p acc => JValue.objCons p.1 p.2 acc) JValue.objNil

/-!
## Reachable states

`Reachable` closes the constructed state under the mutating operations:
`new_transaction`, `new_block` with `previous_hash` omitted (the `mine`
route), and the chain replacement performed by `resolve_conflicts`,
whose adopted chain is exactly one that passed `valid_chain` (see
`resolve_replaced_valid` below).  `ReachableCore` is the same relation
without the resolution step.
-/

inductive ReachableCore : Blockchain → Prop where
  | genesis (t : Nat) : ReachableCore (Blockchain.init t)
  | tx (bc : Blockchain) (s r : String) (a i : Int) (bc' : Blockchain) :
      ReachableCore bc → bc.new_transaction s r a = some (i, bc') →
      ReachableCore bc'
  | mine (bc : Blockchain) (t : Nat) (p : Int) (b : Block) (bc' : Blockchain) :
      ReachableCore bc → bc.new_block t p none = some (b, bc') →
      ReachableCore bc'

inductive Reachable : Blockchain → Prop where
  | genesis (t : Nat) : Reachable (Blockchain.init t)
  | tx (bc : Blockchain) (s r : String) (a i : Int) (bc' : Blockchain) :
      Reachable bc → bc.new_transaction s r a = some (i, bc') → Reachable bc'
  | mine (bc : Blockchain) (t : Nat) (p : Int) (b : Block) (bc' : Blockchain) :
      Reachable bc → bc.new_block t p none = some (b, bc') → Reachable bc'
  | replace (bc : Blockchain) (c : List Block) :
      Reachable bc → Blockchain.valid_chain c = some true →
      Reachable { bc with chain := c }

/-- `__init__` is exactly `new_block(proof=100, previous_hash='1')` run
on the empty state. -/
theorem init_eq_new_block (t : Nat) :
    ({ chain := [], current_transactions := [], nodes := [] } :
        Blockchain).new_block t 100 (some "1")
      = some (genesisBlock t, Blockchain.init t) := rfl

/-- Any chain list held by `new_chain` at the end of the peer loop
passed `valid_chain`, provided the initial accumulator did. -/
theorem resolveGo_newChain_valid (fetch : String → Option (Nat × List Block)) :
    ∀ (nodes : List String) (m : Nat) (nc : Option (List Block))
      (res : Nat × Option (List Block)),
      (∀ c, nc = some c → Blockchain.valid_chain c = some true) →
      Blockchain.resolveGo fetch nodes m nc = some res →
      ∀ c, res.2 = some c → Blockchain.valid_chain c = some true := by
  intro nodes
  induction nodes with
  | nil =>
      intro m nc res hnc hgo c hc
      simp only [Blockchain.resolveGo, Option.some.injEq] at hgo
      exact hnc c (by rw [← hgo] at hc; exact hc)
  | cons node rest ih =>
      intro m nc res hnc hgo c hc
      cases hfetch : fetch node with
      | none =>
          simp only [Blockchain.resolveGo, hfetch] at hgo
          exact ih m nc res hnc hgo c hc
      | some p =>
          obtain ⟨length, chain⟩ := p
          simp only [Blockchain.resolveGo, hfetch] at hgo
          by_cases hlt : m < length
          · rw [if_pos hlt] at hgo
            cases hvc : Blockchain.valid_chain chain with
            | none => rw [hvc] at hgo; exact absurd hgo (by simp)
            | some b =>
                cases b with
                | true =>
                    rw [hvc] at hgo
                    exact ih length (some chain) res
                      (by intro c' hc'; cases hc'; exact hvc) hgo c hc
                | false => rw [hvc] at hgo; exact ih m nc res hnc hgo c hc
          · rw [if_neg hlt] at hgo
            exact ih m nc res hnc hgo c hc

/-- When `resolve_conflicts` returns, either the state is untouched or
the local chain was replaced (returning `True`) by a chain that passed
`valid_chain` — the side condition justifying `Reachable.replace`. -/
theorem resolve_replaced_valid (bc : Blockchain)
    (fetch : String → Option (Nat × List Block)) (r : Option Bool)
    (bc' : Blockchain) :
    bc.resolve_conflicts fetch = some (r, bc') →
    bc' = bc ∨ (r = some true ∧ Blockchain.valid_chain bc'.chain = some true) := by
  intro h
  unfold Blockchain.resolve_conflicts at h
  cases hgo : Blockchain.resolveGo fetch bc.nodes bc.chain.length none with
  | none => rw [hgo] at h; exact absurd h (by simp)
  | some res =>
      obtain ⟨m, nc⟩ := res
      simp only [hgo] at h
      cases nc with
      | none => simp only [Option.some.injEq, Prod.mk.injEq] at h; exact Or.inl h.2.symm
      | some c =>
          have hcv : Blockchain.valid_chain c = some true :=
            resolveGo_newChain_valid fetch bc.nodes bc.chain.length none (m, some c)
              (by intro c' hc'; cases hc') hgo c rfl
          have h' : (if c = [] then some (none, bc)
              else some (some true, { bc with chain := c })) = some (r, bc') := h
          by_cases hce : c = []
          · subst hce; exact absurd hcv (by simp [Blockchain.valid_chain])
          · rw [if_neg hce] at h'
            simp only [Option.some.injEq, Prod.mk.injEq] at h'
            exact Or.inr ⟨h'.1.symm, by rw [← h'.2]; exact hcv⟩

/-!
## The walk of `valid_chain`, decomposed
-/

theorem getLast?_eq_lastB (a : Block) (l : List Block) :
    (a :: l).getLast? = some (lastB a l) := by
  induction l generalizing a with
  | nil => rfl
  | cons b l ih => rw [List.getLast?_cons_cons, ih b, lastB]

/-- The walk over an appended list: the first part must pass, and the
second part is walked from the last block of the first. -/
theorem validFrom_append (l₁ : List Block) (a : Block) (l₂ : List Block) :
    Blockchain.validFrom a (l₁ ++ l₂) =
      (Blockchain.validFrom a l₁ && Blockchain.validFrom (lastB a l₁) l₂) := by
  induction l₁ generalizing a with
  | nil => simp [Blockchain.validFrom, lastB]
  | cons b l ih =>
      simp only [List.cons_append, Blockchain.validFrom, lastB]
      by_cases h1 : b.previous_hash = Blockchain.hash (blockJson a)
      · by_cases h2 : Blockchain.valid_proof a.proof b.proof = true
        · simp [h1, h2, ih]
        · simp [h1, h2]
      · simp [h1]

/-!
## Helper lemmas for the claims
-/

theorem length_hexDigits : ∀ k n : Nat, (hexDigits k n).length = k
  | 0, _ => rfl
  | k + 1, n => by simp [hexDigits, length_hexDigits k n]

/-- A list with at least four elements has `take 4` equal to
`['0','0','0','0']` exactly when all of its first four characters are
`'0'`. -/
theorem take4_all_zero_iff (l : List Char) (h4 : 4 ≤ l.length) :
    l.take 4 = ['0', '0', '0', '0'] ↔ ∀ c ∈ l.take 4, c = '0' := by
  have hlen : (l.take 4).length = 4 := by
    rw [List.length_take]; omega
  constructor
  · intro he c hc
    rw [he] at hc
    simpa using hc
  · intro hall
    have hrep : l.take 4 = List.replicate 4 '0' :=
      List.eq_replicate_iff.mpr ⟨hlen, hall⟩
    simpa using hrep

/-- C6: `valid_proof(last_proof, proof)` is true iff the first four
characters of the 64-character hexadecimal SHA-256 digest of the
concatenation `f'{last_proof}{proof}'` of the two decimal
representations are all `'0'`. -/
theorem C6_valid_proof_iff_leading_zeros (p q : Int) :
    (sha256hexChars (toString p ++ toString q)).length = 64 ∧
    (Blockchain.valid_proof p q = true ↔
      ∀ c ∈ (sha256hexChars (toString p ++ toString q)).take 4, c = '0') := by
  refine ⟨length_hexDigits 64 _, ?_⟩
  have hvp : Blockchain.valid_proof p q =
      ((sha256hexChars (toString p ++ toString q)).take 4 ==
        ['0', '0', '0', '0']) := rfl
  rw [hvp, beq_iff_eq]
  exact take4_all_zero_iff _ (by
    have : (sha256hexChars (toString p ++ toString q)).length = 64 :=
      length_hexDigits 64 _
    omega)

/-- C5: whenever some non-negative solution exists at all (the premise
under which the unbounded `while` loop of `proof_of_work` terminates),
`proof_of_work` returns the smallest non-negative solution: its result
verifies, and every smaller candidate fails. -/
theorem C5_proof_of_work_minimal (p : Int)
    (h : ∃ q : Nat, Blockchain.valid_proof p q = true) :
    Blockchain.valid_proof p (Blockchain.proof_of_work p h) = true ∧
    ∀ q' : Nat, q' < Blockchain.proof_of_work p h →
      Blockchain.valid_proof p q' = false := by
  refine ⟨Nat.find_spec h, fun q' hq' => ?_⟩
  simpa using Nat.find_min h hq'

/-- Witness for C5 at `p = 100` (whose smallest solution is `35293`). -/
theorem C5_proof_of_work_minimal_witness :
    Blockchain.valid_proof 100 ((35293 : Nat) : Int) = true ∧
    Blockchain.valid_proof 100
      (Blockchain.proof_of_work 100 ⟨35293, by decide⟩) = true := by
  refine ⟨by decide, ?_⟩
  exact (C5_proof_of_work_minimal 100 ⟨35293, by decide⟩).1

/-- C8: `valid_chain` hits the out-of-bounds access `chain[0]` exactly
on the empty list; on any non-empty chain it returns a boolean, and on
a chain of length one it returns `True`. -/
theorem C8_valid_chain_totality :
    Blockchain.valid_chain ([] : List Block) = none ∧
    (∀ c : List Block, c ≠ [] → (Blockchain.valid_chain c).isSome = true) ∧
    (∀ b : Block, Blockchain.valid_chain [b] = some true) := by
  refine ⟨rfl, ?_, fun b => rfl⟩
  intro c hc
  cases c with
  | nil => exact absurd rfl hc
  | cons a l => rfl

/-- Witness for C8 on the singleton genesis chain. -/
theorem C8_valid_chain_totality_witness :
    [genesisBlock 0] ≠ ([] : List Block) ∧
    (Blockchain.valid_chain [genesisBlock 0]).isSome = true := by
  refine ⟨by simp, ?_⟩
  exact C8_valid_chain_totality.2.1 [genesisBlock 0] (by simp)

/-- C9: `previous_hash or self.hash(self.last_block)` uses a supplied
truthy (non-empty) string as given, but for the falsy values `None` and
`""` it computes the digest of the current last block instead. -/
theorem C9_previous_hash_truthiness :
    (∀ (bc : Blockchain) (t : Nat) (p : Int) (s : String), s ≠ "" →
        bc.new_block t p (some s) = some (Blockchain.mkNewBlock bc t p s) ∧
        (Blockchain.mkNewBlock bc t p s).1.previous_hash = s) ∧
    (∀ (bc : Blockchain) (t : Nat) (p : Int) (last : Block),
        bc.last_block = some last →
        bc.new_block t p (some "") =
          some (Blockchain.mkNewBlock bc t p (Blockchain.hash (blockJson last))) ∧
        bc.new_block t p none =
          some (Blockchain.mkNewBlock bc t p (Blockchain.hash (blockJson last))) ∧
        (Blockchain.mkNewBlock bc t p
            (Blockchain.hash (blockJson last))).1.previous_hash =
          Blockchain.hash (blockJson last)) := by
  constructor
  · intro bc t p s hs
    exact ⟨by simp [Blockchain.new_block, hs], rfl⟩
  · intro bc t p last hlast
    refine ⟨?_, ?_, rfl⟩
    · simp [Blockchain.new_block, hlast]
    · simp [Blockchain.new_block, hlast]

/-- Witness for C9 on a fresh instance. -/
theorem C9_previous_hash_truthiness_witness :
    ("abc" : String) ≠ "" ∧
    (Blockchain.init 0).last_block = some (genesisBlock 0) ∧
    (Blockchain.init 0).new_block 1 7 (some "abc") =
      some (Blockchain.mkNewBlock (Blockchain.init 0) 1 7 "abc") ∧
    (Blockchain.init 0).new_block 1 7 none =
      some (Blockchain.mkNewBlock (Blockchain.init 0) 1 7
        (Blockchain.hash (blockJson (genesisBlock 0)))) := by
  refine ⟨by decide, rfl, ?_, ?_⟩
  · exact (C9_previous_hash_truthiness.1 (Blockchain.init 0) 1 7 "abc"
      (by decide)).1
  · exact ((C9_previous_hash_truthiness.2 (Blockchain.init 0) 1 7
      (genesisBlock 0) rfl).2).1

/-- C10: `register_node` stores exactly `urlparse(address).netloc` with
set semantics — re-registering is a no-op, a schemeful address stores
its `host:port`, and a scheme-less `host:port` address parses to an
empty netloc, so `""` is what enters the node set. -/
theorem C10_register_node_netloc :
    (∀ (bc : Blockchain) (a : String),
        ((bc.register_node a).register_node a).nodes = (bc.register_node a).nodes) ∧
    (∀ (bc : Blockchain) (a : String),
        urlparseNetloc a ∈ (bc.register_node a).nodes) ∧
    (∀ (bc : Blockchain) (a : String), bc.nodes = [] →
        ((bc.register_node a).register_node a).nodes = [urlparseNetloc a]) ∧
    urlparseNetloc "http://127.0.0.1:5002" = "127.0.0.1:5002" ∧
    urlparseNetloc "127.0.0.1:5002" = "" ∧
    (∀ bc : Blockchain, "" ∈ (bc.register_node "127.0.0.1:5002").nodes) := by
  have hmem : ∀ (l : List String) (x : String), x ∈ setAdd l x := by
    intro l x
    unfold setAdd
    by_cases hx : x ∈ l
    · rw [if_pos hx]; exact hx
    · rw [if_neg hx]; simp
  have hidem : ∀ (l : List String) (x : String), setAdd (setAdd l x) x = setAdd l x := by
    intro l x
    have hx := hmem l x
    show (if x ∈ setAdd l x then setAdd l x else setAdd l x ++ [x]) = setAdd l x
    rw [if_pos hx]
  have hnetloc : urlparseNetloc "127.0.0.1:5002" = "" := by decide
  refine ⟨?_, ?_, ?_, by decide, hnetloc, ?_⟩
  · intro bc a
    exact hidem bc.nodes (urlparseNetloc a)
  · intro bc a
    exact hmem bc.nodes (urlparseNetloc a)
  · intro bc a h
    simp [Blockchain.register_node, h, setAdd]
  · intro bc
    have := hmem bc.nodes (urlparseNetloc "127.0.0.1:5002")
    rwa [hnetloc] at this

/-- Witness for C10 on a fresh instance. -/
theorem C10_register_node_netloc_witness :
    (Blockchain.init 0).nodes = [] ∧
    (((Blockchain.init 0).register_node "http://127.0.0.1:5002").register_node
        "http://127.0.0.1:5002").nodes = [urlparseNetloc "http://127.0.0.1:5002"] :=
  ⟨rfl, C10_register_node_netloc.2.2.1 (Blockchain.init 0)
    "http://127.0.0.1:5002" rfl⟩

/-!
## C1: the return value of `resolve_conflicts`

The function body only contains `return True` (inside `if new_chain:`);
when no peer supplies a strictly longer valid chain the function falls
through and Python returns `None`, not `False` — contradicting both the
claim and the function's own `-> bool` annotation.  The theorem
evaluates the embedding at the failing inputs: a fresh node with no
peers, and a node whose single peer reports an equal-length valid
chain.  In both cases the state is untouched and the returned value is
`None` (the inner `none`), and since the state is unchanged, a second
call is the very same evaluation. -/
theorem C1_resolve_returns_none_not_false :
    (Blockchain.init 0).resolve_conflicts (fun _ => none) =
      some (none, Blockchain.init 0) ∧
    ((Blockchain.init 0).register_node "http://127.0.0.1:5002").resolve_conflicts
        (fun _ => some (1, [genesisBlock 5])) =
      some (none, (Blockchain.init 0).register_node "http://127.0.0.1:5002") :=
  ⟨rfl, rfl⟩

/-!
## C3: what `mineBlock` appends
-/

/-- C3 as stated is false: `new_block` sets the new index to
`len(self.chain) + 1`, not to the previous last block's `index + 1`;
on a state whose last block has index 5 and chain length 1 the two
differ (2 ≠ 6). -/
theorem C3_counterexample :
    ¬ (∀ (bc : Blockchain) (t : Nat) (p : Int), bc.chain ≠ [] →
        ∀ (b : Block) (bc' : Blockchain), bc.new_block t p none = some (b, bc') →
          (∀ last : Block, bc.last_block = some last →
            b.previous_hash = Blockchain.hash (blockJson last) ∧
            b.index = last.index + 1) ∧
          b.transactions = bc.current_transactions ∧
          bc'.current_transactions = [] ∧
          bc'.chain = bc.chain ++ [b]) := by
  intro hall
  have heq : skewState.new_block 0 7 none =
      some ((Blockchain.mkNewBlock skewState 0 7
          (Blockchain.hash (blockJson skewBlock))).1,
        (Blockchain.mkNewBlock skewState 0 7
          (Blockchain.hash (blockJson skewBlock))).2) := rfl
  have h := hall skewState 0 7 (by simp [skewState]) _ _ heq
  have hidx := (h.1 skewBlock rfl).2
  simp [Blockchain.mkNewBlock, skewState, skewBlock] at hidx

/-- C3 amended: on every state with a non-empty chain, `new_block(p)`
with `previous_hash` omitted appends exactly one block `b`:
`b.previous_hash` is the digest of the previous last block,
`b.index` is the pre-call chain length plus one (equal to the previous
block's `index + 1` precisely when the index invariant holds),
`b.transactions` is the pool at call time, the pool is cleared
afterwards, and the previously existing blocks are unmodified. -/
theorem C3_mine_appends_one_block (bc : Blockchain) (t : Nat) (p : Int)
    (last : Block) (hlast : bc.last_block = some last) :
    (bc.new_block t p none).isSome = true ∧
    (∀ (b : Block) (bc' : Blockchain), bc.new_block t p none = some (b, bc') →
      b.previous_hash = Blockchain.hash (blockJson last) ∧
      b.index = (bc.chain.length : Int) + 1 ∧
      b.transactions = bc.current_transactions ∧
      b.timestamp = (t : Int) ∧
      b.proof = p ∧
      bc'.current_transactions = [] ∧
      bc'.chain = bc.chain ++ [b] ∧
      bc'.nodes = bc.nodes ∧
      bc'.chain.take bc.chain.length = bc.chain) := by
  have hnb : bc.new_block t p none =
      some (Blockchain.mkNewBlock bc t p (Blockchain.hash (blockJson last))) := by
    unfold Blockchain.new_block
    rw [hlast]
    rfl
  constructor
  · rw [hnb]; rfl
  · intro b bc' heq
    rw [hnb] at heq
    have hb : (Blockchain.mkNewBlock bc t p (Blockchain.hash (blockJson last))).1 = b := by
      rw [Option.some_inj.mp heq]
    have hbc' : (Blockchain.mkNewBlock bc t p (Blockchain.hash (blockJson last))).2 = bc' := by
      rw [Option.some_inj.mp heq]
    refine ⟨?_, ?_, ?_, ?_, ?_, ?_, ?_, ?_, ?_⟩
    · rw [← hb]; rfl
    · rw [← hb]; rfl
    · rw [← hb]; rfl
    · rw [← hb]; rfl
    · rw [← hb]; rfl
    · rw [← hbc']; rfl
    · rw [← hbc', ← hb]; rfl
    · rw [← hbc']; rfl
    · rw [← hbc']
      show (bc.chain ++ [_]).take bc.chain.length = bc.chain
      exact List.take_left bc.chain _
  
/-- Witness for C3 (amended) on a fresh instance. -/
theorem C3_mine_appends_one_block_witness :
    (Blockchain.init 0).last_block = some (genesisBlock 0) ∧
    (Blockchain.mkNewBlock (Blockchain.init 0) 1 7
        (Blockchain.hash (blockJson (genesisBlock 0)))).2.chain =
      (Blockchain.init 0).chain ++
        [(Blockchain.mkNewBlock (Blockchain.init 0) 1 7
          (Blockchain.hash (blockJson (genesisBlock 0)))).1] := by
  refine ⟨rfl, ?_⟩
  exact (((C3_mine_appends_one_block (Blockchain.init 0) 1 7 (genesisBlock 0)
    rfl).2 _ _ rfl).2.2.2.2.2.2).1

/-!
## C2: the index invariant

`valid_chain` checks hash links and proofs of work but never reads the
`index` fields, so a resolve-driven replacement can install a chain
whose indices are arbitrary.
-/

/-- C2 as stated is false: from the genesis state, adopting `skewChain`
(which passes `valid_chain`, being longer than the local chain) reaches
a state whose first block has index 7 ≠ 1. -/
theorem C2_counterexample :
    ¬ (∀ bc : Blockchain, Reachable bc →
        ∀ (i : Nat) (b : Block), bc.chain[i]? = some b →
          b.index = (i : Int) + 1) := by
  intro hall
  have hreach : Reachable { Blockchain.init 0 with chain := skewChain } :=
    Reachable.replace (Blockchain.init 0) skewChain (Reachable.genesis 0)
      (by decide)
  have h := hall _ hreach 0 skewChainA rfl
  norm_num [skewChainA] at h

/-- C2 amended: the index invariant does hold for every state reachable
through genesis creation, `new_transaction` and `new_block` alone (no
conflict resolution): the block stored at position `i` carries
`index = i + 1`.  Resolution can break it because `valid_chain` never
inspects `index` (see the counterexample). -/
theorem C2_index_invariant_core (bc : Blockchain) (h : ReachableCore bc) :
    ∀ (i : Nat) (b : Block), bc.chain[i]? = some b → b.index = (i : Int) + 1 := by
  induction h with
  | genesis t =>
      intro i b hib
      cases i with
      | zero =>
          have hb : genesisBlock t = b := by
            have : some (genesisBlock t) = some b := hib
            exact Option.some_inj.mp this
          rw [← hb]; rfl
      | succ n =>
          have : ([] : List Block)[n]? = some b := hib
          simp at this
  | tx bc s r a i bc' hr heq ih =>
      intro j b hjb
      have hchain : bc'.chain = bc.chain := by
        unfold Blockchain.new_transaction at heq
        cases hlast : bc.last_block with
        | none => rw [hlast] at heq; exact absurd heq (by simp)
        | some l =>
            rw [hlast] at heq
            simp only [Option.map_some', Option.some.injEq, Prod.mk.injEq] at heq
            rw [← heq.2]
      rw [hchain] at hjb
      exact ih j b hjb
  | mine bc t p b bc' hr heq ih =>
      intro j b' hjb
      unfold Blockchain.new_block at heq
      cases hlast : bc.last_block with
      | none => rw [hlast] at heq; exact absurd heq (by simp)
      | some l =>
          rw [hlast] at heq
          simp only [Option.map_some', Option.some.injEq] at heq
          have hb : (Blockchain.mkNewBlock bc t p
              (Blockchain.hash (blockJson l))).1 = b := congrArg Prod.fst heq
          have hbc' : (Blockchain.mkNewBlock bc t p
              (Blockchain.hash (blockJson l))).2 = bc' := congrArg Prod.snd heq
          have hchain : bc'.chain = bc.chain ++ [b] := by
            rw [← hbc', ← hb]; rfl
          have hidx : b.index = (bc.chain.length : Int) + 1 := by
            rw [← hb]; rfl
          rw [hchain] at hjb
          by_cases hj : j < bc.chain.length
          · rw [List.getElem?_append_left hj] at hjb
            exact ih j b' hjb
          · have hj' : bc.chain.length ≤ j := le_of_not_lt hj
            rw [List.getElem?_append_right hj'] at hjb
            cases hk : j - bc.chain.length with
            | zero =>
                rw [hk] at hjb
                have hb' : b = b' := by
                  have : some b = some b' := hjb
                  exact Option.some_inj.mp this
                have hjlen : j = bc.chain.length := by omega
                rw [← hb', hidx, hjlen]
            | succ n =>
                rw [hk] at hjb
                have : ([] : List Block)[n]? = some b' := hjb
                simp at this

/-- Witness for C2 (amended) on a fresh instance. -/
theorem C2_index_invariant_core_witness :
    ReachableCore (Blockchain.init 0) ∧
    (Blockchain.init 0).chain[0]? = some (genesisBlock 0) ∧
    (genesisBlock 0).index = ((0 : Nat) : Int) + 1 :=
  ⟨ReachableCore.genesis 0, rfl,
    C2_index_invariant_core (Blockchain.init 0) (ReachableCore.genesis 0) 0
      (genesisBlock 0) rfl⟩

/-!
## C4: `valid_chain` on mined and on tampered chains
-/

/-- The last block of `l ++ [x]` in a walk started at `a` is `x`. -/
theorem lastB_append_singleton (a : Block) (l : List Block) (x : Block) :
    lastB a (l ++ [x]) = x := by
  induction l generalizing a with
  | nil => rfl
  | cons b l ih => exact ih b

/-- Appending one block that links to the last block of a passing chain
and carries a verifying proof keeps `valid_chain` true. -/
theorem valid_chain_snoc (f : Block) (r : List Block) (nb : Block)
    (hfr : Blockchain.validFrom f r = true)
    (hph : nb.previous_hash = Blockchain.hash (blockJson (lastB f r)))
    (hvp : Blockchain.valid_proof (lastB f r).proof nb.proof = true) :
    Blockchain.valid_chain ((f :: r) ++ [nb]) = some true := by
  show some (Blockchain.validFrom f (r ++ [nb])) = some true
  rw [validFrom_append, hfr]
  have hlast : Blockchain.validFrom (lastB f r) [nb] = true := by
    simp [Blockchain.validFrom, hph, hvp]
  rw [hlast]
  rfl

/-- If the walk fails on the suffix `prev :: b :: c₂`, the whole chain
fails, wherever that suffix sits. -/
theorem valid_chain_append_false (c₁ : List Block) (prev b : Block)
    (c₂ : List Block)
    (hbad : Blockchain.validFrom prev (b :: c₂) = false) :
    Blockchain.valid_chain (c₁ ++ prev :: b :: c₂) = some false := by
  cases c₁ with
  | nil => simp [Blockchain.valid_chain, hbad]
  | cons f r =>
      have hsplit : (f :: r) ++ prev :: b :: c₂ =
          f :: ((r ++ [prev]) ++ (b :: c₂)) := by simp
      rw [hsplit]
      show some (Blockchain.validFrom f ((r ++ [prev]) ++ (b :: c₂))) = some false
      rw [validFrom_append, lastB_append_singleton, hbad, Bool.and_false]

/-- C4: `valid_chain` accepts every chain produced solely through
successive mining steps with verifying proofs from genesis; and it
rejects any such chain in which some interior block's `previous_hash`
was altered away from the digest of its predecessor, or in which some
block's proof was replaced by one that `valid_proof` rejects against
the predecessor's proof. -/
theorem C4_valid_chain_characterization :
    (∀ c : List Block, MinedChain c → Blockchain.valid_chain c = some true) ∧
    (∀ (c₁ c₂ : List Block) (prev b : Block) (h' : String),
        MinedChain (c₁ ++ prev :: b :: c₂) →
        h' ≠ Blockchain.hash (blockJson prev) →
        Blockchain.valid_chain
          (c₁ ++ prev :: { b with previous_hash := h' } :: c₂) = some false) ∧
    (∀ (c₁ c₂ : List Block) (prev b : Block) (p' : Int),
        MinedChain (c₁ ++ prev :: b :: c₂) →
        Blockchain.valid_proof prev.proof p' = false →
        Blockchain.valid_chain
          (c₁ ++ prev :: { b with proof := p' } :: c₂) = some false) := by
  refine ⟨?_, ?_, ?_⟩
  · intro c hmc
    induction hmc with
    | genesis t => rfl
    | mine c txs nodes last t p hmc hlast hvp ih =>
        cases c with
        | nil => simp at hlast
        | cons f r =>
            have hfr : Blockchain.validFrom f r = true :=
              Option.some_inj.mp ih
            have hlastB : lastB f r = last := by
              rw [getLast?_eq_lastB] at hlast
              exact Option.some_inj.mp hlast
            exact valid_chain_snoc f r _ hfr (by rw [hlastB]; rfl)
              (by rw [hlastB]; exact hvp)
  · intro c₁ c₂ prev b h' _ hne
    refine valid_chain_append_false c₁ prev _ c₂ ?_
    simp [Blockchain.validFrom, hne]
  · intro c₁ c₂ prev b p' _ hp'
    refine valid_chain_append_false c₁ prev _ c₂ ?_
    simp [Blockchain.validFrom, hp']

/-- Witness for C4: a concrete mined chain of length two; `valid_chain`
accepts it, rejects it after its second block's `previous_hash` is
replaced by `"x"`, and rejects it after its second block's proof is
replaced by 0 (`sha256('1000')` does not start with four zeros). -/
theorem C4_valid_chain_characterization_witness :
    MinedChain minedWitnessChain ∧
    Blockchain.valid_chain minedWitnessChain = some true ∧
    ("x" : String) ≠ Blockchain.hash (blockJson (genesisBlock 0)) ∧
    Blockchain.valid_chain
      ([] ++ genesisBlock 0 ::
        { minedWitnessBlock with previous_hash := "x" } :: []) = some false ∧
    Blockchain.valid_proof (genesisBlock 0).proof 0 = false ∧
    Blockchain.valid_chain
      ([] ++ genesisBlock 0 ::
        { minedWitnessBlock with proof := 0 } :: []) = some false := by
  have hmined : MinedChain minedWitnessChain :=
    MinedChain.mine [genesisBlock 0] [] [] (genesisBlock 0) 1 35293
      (MinedChain.genesis 0) rfl (by decide)
  have hmined' : MinedChain ([] ++ genesisBlock 0 :: minedWitnessBlock :: []) :=
    hmined
  refine ⟨hmined, C4_valid_chain_characterization.1 minedWitnessChain hmined,
    by decide, ?_, by decide, ?_⟩
  · exact C4_valid_chain_characterization.2.1 [] [] (genesisBlock 0)
      minedWitnessBlock "x" hmined' (by decide)
  · exact C4_valid_chain_characterization.2.2 [] [] (genesisBlock 0)
      minedWitnessBlock 0 hmined' (by decide)

/-!
## C7: the digest is deterministic and canonicalizes field order
-/

/-- One comparison step of `charListLe`, unfolded. -/
theorem charListLe_cons_iff (a b : Char) (as bs : List Char) :
    charListLe (a :: as) (b :: bs) = true ↔
      a.toNat < b.toNat ∨ (a.toNat = b.toNat ∧ charListLe as bs = true) := by
  by_cases h1 : a.toNat < b.toNat
  · simp [charListLe, h1]
  · by_cases h2 : b.toNat < a.toNat
    · have hne : ¬ (a.toNat = b.toNat ∧ charListLe as bs = true) := by
        rintro ⟨he, _⟩; omega
      simp [charListLe, h1, h2, hne]
    · have he : a.toNat = b.toNat := by omega
      simp [charListLe, h1, h2, he]

theorem charListLe_total : ∀ a b : List Char,
    charListLe a b = true ∨ charListLe b a = true
  | [], _ => Or.inl rfl
  | _ :: _, [] => Or.inr rfl
  | a :: as, b :: bs => by
      rcases Nat.lt_trichotomy a.toNat b.toNat with h | h | h
      · left; rw [charListLe_cons_iff]; exact Or.inl h
      · rcases charListLe_total as bs with hr | hr
        · left; rw [charListLe_cons_iff]; exact Or.inr ⟨h, hr⟩
        · right; rw [charListLe_cons_iff]; exact Or.inr ⟨h.symm, hr⟩
      · right; rw [charListLe_cons_iff]; exact Or.inl h

theorem charListLe_trans : ∀ a b c : List Char,
    charListLe a b = true → charListLe b c = true → charListLe a c = true
  | [], _, _, _, _ => rfl
  | _ :: _, [], _, h1, _ => by simp [charListLe] at h1
  | _ :: _, _ :: _, [], _, h2 => by simp [charListLe] at h2
  | a :: as, b :: bs, c :: cs, h1, h2 => by
      rw [charListLe_cons_iff] at h1 h2 ⊢
      rcases h1 with h1 | ⟨h1e, h1r⟩ <;> rcases h2 with h2 | ⟨h2e, h2r⟩
      · exact Or.inl (by omega)
      · exact Or.inl (by omega)
      · exact Or.inl (by omega)
      · exact Or.inr ⟨by omega, charListLe_trans as bs cs h1r h2r⟩

theorem charListLe_antisymm : ∀ a b : List Char,
    charListLe a b = true → charListLe b a = true → a = b
  | [], [], _, _ => rfl
  | [], _ :: _, _, h2 => by simp [charListLe] at h2
  | _ :: _, [], h1, _ => by simp [charListLe] at h1
  | a :: as, b :: bs, h1, h2 => by
      rw [charListLe_cons_iff] at h1 h2
      have hab : a.toNat = b.toNat := by
        rcases h1 with h | ⟨h, _⟩ <;> rcases h2 with h' | ⟨h', _⟩ <;> omega
      have ha : a = b := by
        have := Char.ofNat_toNat a
        rw [hab, Char.ofNat_toNat b] at this
        exact this.symm
      have has : as = bs := by
        rcases h1 with h | ⟨_, hr1⟩
        · omega
        · rcases h2 with h' | ⟨_, hr2⟩
          · omega
          · exact charListLe_antisymm as bs hr1 hr2
      rw [ha, has]

/-- `strLe` is antisymmetric: two strings below one another are equal. -/
theorem strLe_antisymm (x y : String) (h1 : strLe x y = true)
    (h2 : strLe y x = true) : x = y := by
  have hdata : x.toList = y.toList := charListLe_antisymm _ _ h1 h2
  cases x with
  | mk xd =>
      cases y with
      | mk yd =>
          have : xd = yd := hdata
          rw [this]

/-- Two sorted field lists that are permutations of one another and have
duplicate-free keys are equal: the sort order is determined by the keys
alone.  This is why `sort_keys=True` canonicalizes a dict. -/
theorem sorted_perm_nodupKeys_eq :
    ∀ (l₁ l₂ : List (String × String)),
      l₁.Perm l₂ →
      l₁.Sorted (fun a b => strLe a.1 b.1 = true) →
      l₂.Sorted (fun a b => strLe a.1 b.1 = true) →
      (l₁.map Prod.fst).Nodup →
      l₁ = l₂
  | [], l₂, hp, _, _, _ => hp.nil_eq
  | a :: l₁, l₂, hp, hs₁, hs₂, hnd => by
      cases l₂ with
      | nil => exact absurd hp.symm.nil_eq (by simp)
      | cons c l₂' =>
          have hac : a = c := by
            have hamem : a ∈ c :: l₂' := hp.mem_iff.mp (List.mem_cons_self a l₁)
            have hcmem : c ∈ a :: l₁ := hp.symm.mem_iff.mp (List.mem_cons_self c l₂')
            rcases List.mem_cons.mp hamem with h | hal₂
            · exact h
            · rcases List.mem_cons.mp hcmem with h | hcl₁
              · exact h.symm
              · have h1 : strLe a.1 c.1 = true :=
                  List.rel_of_sorted_cons hs₁ c hcl₁
                have h2 : strLe c.1 a.1 = true :=
                  List.rel_of_sorted_cons hs₂ a hal₂
                have hkey : a.1 = c.1 := strLe_antisymm _ _ h1 h2
                have : a.1 ∈ l₁.map Prod.fst := by
                  rw [hkey]
                  exact List.mem_map_of_mem Prod.fst hcl₁
                exact absurd this (List.nodup_cons.mp hnd).1
          subst hac
          have htail : l₁ = l₂' :=
            sorted_perm_nodupKeys_eq l₁ l₂' hp.cons_inv hs₁.of_cons hs₂.of_cons
              (List.nodup_cons.mp hnd).2
          rw [htail]

/-- The object fields that `jd` collects from `objOfList l` are the
fields of `l` with serialized values. -/
theorem jd_objOfList_fields (l : List (String × JValue)) :
    (jd (objOfList l)).2.2 = l.map fun p => (p.1, jsonDumps p.2) := by
  induction l with
  | nil => rfl
  | cons p l ih =>
      show (p.1, (jd p.2).1) :: (jd (objOfList l)).2.2 =
        (p.1, jsonDumps p.2) :: l.map fun q => (q.1, jsonDumps q.2)
      rw [ih]
      rfl

/-- Serializing an object renders its fields (values serialized first,
then the fields sorted by key). -/
theorem jsonDumps_objOfList (l : List (String × JValue)) :
    jsonDumps (objOfList l) =
      renderObj (l.map fun p => (p.1, jsonDumps p.2)) := by
  cases l with
  | nil => rfl
  | cons p l =>
      show (jd (JValue.objCons p.1 p.2 (objOfList l))).1 = _
      simp [jd, jsonDumps, jd_objOfList_fields]

/-- C7: the digest is deterministic, and `sort_keys=True` makes it
canonical in the field order: two objects carrying the same
field-name-to-value mapping (a permutation of the same fields, keys
duplicate-free) hash identically however their fields are ordered. -/
theorem C7_hash_deterministic_canonical :
    (∀ (l₁ l₂ : List (String × JValue)),
        (l₁.map Prod.fst).Nodup → l₁.Perm l₂ →
        Blockchain.hash (objOfList l₁) = Blockchain.hash (objOfList l₂)) ∧
    (∀ v : JValue, Blockchain.hash v = Blockchain.hash v) := by
  constructor
  · intro l₁ l₂ hnd hp
    have hsort : sortFields (l₁.map fun p => (p.1, jsonDumps p.2)) =
        sortFields (l₂.map fun p => (p.1, jsonDumps p.2)) := by
      haveI : IsTotal (String × String) (fun a b => strLe a.1 b.1 = true) :=
        ⟨fun a b => charListLe_total a.1.toList b.1.toList⟩
      haveI : IsTrans (String × String) (fun a b => strLe a.1 b.1 = true) :=
        ⟨fun _ _ _ h1 h2 => charListLe_trans _ _ _ h1 h2⟩
      apply sorted_perm_nodupKeys_eq
      · exact (List.perm_insertionSort _ _).trans
          ((hp.map _).trans (List.perm_insertionSort _ _).symm)
      · exact List.sorted_insertionSort _ _
      · exact List.sorted_insertionSort _ _
      · have hkeys : ((sortFields (l₁.map fun p => (p.1, jsonDumps p.2))).map
            Prod.fst).Perm (l₁.map Prod.fst) := by
          have hmp := (List.perm_insertionSort
            (fun a b : String × String => strLe a.1 b.1 = true)
            (l₁.map fun p => (p.1, jsonDumps p.2))).map Prod.fst
          simpa [List.map_map, Function.comp] using hmp
        exact hkeys.symm.nodup hnd
    have hro : renderObj (l₁.map fun p => (p.1, jsonDumps p.2)) =
        renderObj (l₂.map fun p => (p.1, jsonDumps p.2)) := by
      unfold renderObj
      rw [hsort]
    unfold Blockchain.hash
    rw [jsonDumps_objOfList, jsonDumps_objOfList, hro]
  · intro v
    rfl

/-- Witness for C7: the two-field object presented in both orders. -/
theorem C7_hash_deterministic_canonical_witness :
    (([("a", JValue.int 1), ("b", JValue.int 2)]).map Prod.fst).Nodup ∧
    ([("a", JValue.int 1), ("b", JValue.int 2)]).Perm
      [("b", JValue.int 2), ("a", JValue.int 1)] ∧
    Blockchain.hash (objOfList [("a", JValue.int 1), ("b", JValue.int 2)]) =
      Blockchain.hash (objOfList [("b", JValue.int 2), ("a", JValue.int 1)]) := by
  have hperm : ([("a", JValue.int 1), ("b", JValue.int 2)]).Perm
      [("b", JValue.int 2), ("a", JValue.int 1)] :=
    List.Perm.swap ("b", JValue.int 2) ("a", JValue.int 1) []
  exact ⟨by decide, hperm,
    C7_hash_deterministic_canonical.1 _ _ (by decide) hperm⟩
